import Mathlib

/-!
Verification of the diff-parsing and chunking core of an AI code-review
GitHub action.  The TypeScript sources (`src/diff.ts`, `src/config.ts`,
`src/review.ts`) are shallowly embedded: strings are `List Char`,
JavaScript numbers that hold counts are `Nat`, parameters that may be
any integer are `Int`, and JavaScript object mutation/aliasing in the
diff parser is made explicit via an `aliasCount` field (see
`ParseState`).
-/

set_option maxRecDepth 10000

/-- One hunk of a parsed diff, as in `DiffHunk` of `src/types.ts`.
`content` is the hunk text (header line plus body lines, newline-joined). -/
structure DiffHunk where
  oldStart : Nat
  oldLines : Nat
  newStart : Nat
  newLines : Nat
  content : List Char
deriving Repr, DecidableEq

/-- One file of a parsed diff, as in `DiffFile` of `src/types.ts`. -/
structure DiffFile where
  path : List Char
  additions : Nat
  deletions : Nat
  hunks : List DiffHunk
deriving Repr, DecidableEq

/-- A chunk of files destined for one review call, as in `DiffChunk`. -/
structure DiffChunk where
  files : List DiffFile
  totalLines : Nat
deriving Repr, DecidableEq

/-- `additions + deletions`, the "size" of a file used throughout `diff.ts`. -/
def fileSize (f : DiffFile) : Nat :=
  f.additions + f.deletions

/-- Loop body of `splitIntoChunks` (`src/diff.ts` lines 129-163), with the
mutable `chunks`/`currentChunk`/`currentSize` variables turned into an
accumulator-passing recursion.  `cur`/`sz` are the current chunk under
construction and its running size; the produced chunks are returned in order. -/
def splitGo (maxChunkSize : Int) : List DiffFile → List DiffFile → Nat → List DiffChunk
  | [], cur, sz => if cur = [] then [] else [⟨cur, sz⟩]
  | f :: rest, cur, sz =>
    if (fileSize f : Int) > maxChunkSize then
      (if cur = [] then [] else [⟨cur, sz⟩]) ++
        ⟨[f], fileSize f⟩ :: splitGo maxChunkSize rest [] 0
    else if ((sz + fileSize f : Int) > maxChunkSize ∧ cur ≠ []) then
      ⟨cur, sz⟩ :: splitGo maxChunkSize rest [f] (fileSize f)
    else
      splitGo maxChunkSize rest (cur ++ [f]) (sz + fileSize f)

/-- `splitIntoChunks` from `src/diff.ts` (lines 121-174). -/
def splitIntoChunks (files : List DiffFile) (maxChunkSize : Int) : List DiffChunk :=
  splitGo maxChunkSize files [] 0

/-- A concrete run of the spec scenario (file sizes 150, 300, 225, budget 200)
used to instantiate the chunking claims. -/
def demoFilesChunks : List DiffFile :=
  [⟨('a' : Char) :: [], 150, 0, []⟩, ⟨('b' : Char) :: [], 300, 0, []⟩,
    ⟨('c' : Char) :: [], 225, 0, []⟩]

/-- The "larger or equally large file first" preorder used by the comparator
`(a, b) => (b.additions + b.deletions) - (a.additions + a.deletions)` in
`limitFiles` (`src/diff.ts` line 205): `sizeGE a b` holds when the comparator
returns a value `<= 0`, i.e. `a` may stay before `b`. -/
def sizeGE (a b : DiffFile) : Prop :=
  fileSize b ≤ fileSize a

instance : DecidableRel sizeGE := fun a b => Nat.decLe (fileSize b) (fileSize a)

instance : IsTotal DiffFile sizeGE :=
  ⟨fun a b => Nat.le_total (fileSize b) (fileSize a)⟩

instance : IsTrans DiffFile sizeGE :=
  ⟨fun _ _ _ hab hbc => le_trans hbc hab⟩

/-- `[...files].sort(comparator)`: JavaScript `Array.prototype.sort` is a
stable sort, modelled by the (stable) insertion sort on the `sizeGE`
preorder. -/
def sortBySizeDesc (files : List DiffFile) : List DiffFile :=
  List.insertionSort sizeGE files

/-- JavaScript `array.slice(0, e)`: a negative end index counts from the end
of the array (clamped at zero). -/
def jsSliceEnd {α : Type} (l : List α) (e : Int) : List α :=
  l.take (if e < 0 then ((l.length : Int) + e).toNat else e.toNat)

/-- `limitFiles` from `src/diff.ts` (lines 198-209). -/
def limitFiles (files : List DiffFile) (maxFiles : Int) : List DiffFile :=
  if (files.length : Int) ≤ maxFiles then files
  else jsSliceEnd (sortBySizeDesc files) maxFiles

/-- Files used in the limiter counterexample (sizes 1, 2, 3). -/
def limDemoSmall : List DiffFile :=
  [⟨['a'], 1, 0, []⟩, ⟨['b'], 2, 0, []⟩, ⟨['c'], 3, 0, []⟩]

/-- Files of the spec's limiter scenario (sizes 7, 150, 45). -/
def limDemo : List DiffFile :=
  [⟨['x'], 7, 0, []⟩, ⟨['y'], 150, 0, []⟩, ⟨['z'], 45, 0, []⟩]

/-- Issue severity, as in `Severity` of `src/types.ts`. -/
inductive Severity
  | critical
  | warning
  | suggestion
deriving Repr, DecidableEq

/-- Issue category, as in `IssueCategory` of `src/types.ts`. -/
inductive IssueCategory
  | security
  | performance
  | logic
  | style
  | best_practice
  | documentation
deriving Repr, DecidableEq

/-- Overall assessment of a review, as in `Assessment` of `src/types.ts`. -/
inductive Assessment
  | approve
  | request_changes
  | comment
deriving Repr, DecidableEq

/-- A single review issue, as in `ReviewIssue` of `src/types.ts`. -/
structure ReviewIssue where
  severity : Severity
  category : IssueCategory
  file : List Char
  line : Nat
  title : List Char
  description : List Char
  suggestion : Option (List Char)
deriving Repr, DecidableEq

/-- A complete review result, as in `ReviewResult` of `src/types.ts`. -/
structure ReviewResult where
  summary : List Char
  issues : List ReviewIssue
  positives : List (List Char)
  overall_assessment : Assessment
deriving Repr, DecidableEq

/-- The assessment loop of `mergeReviewResults` (`src/review.ts` lines 41-50):
starts from `approve`, short-circuits to `request_changes` the moment one is
seen, upgrades to `comment` otherwise. -/
def computeOverall : List ReviewResult → Assessment → Assessment
  | [], acc => acc
  | r :: rest, acc =>
    if r.overall_assessment = Assessment.request_changes then Assessment.request_changes
    else if r.overall_assessment = Assessment.comment then
      computeOverall rest Assessment.comment
    else computeOverall rest acc

/-- `[...new Set(xs)]` in JavaScript: remove duplicates keeping the first
occurrence of each element (`Set` iterates in insertion order). -/
def dedupKeepFirst {α : Type} [DecidableEq α] : List α → List α → List α
  | _, [] => []
  | seen, x :: xs =>
    if x ∈ seen then dedupKeepFirst seen xs
    else x :: dedupKeepFirst (x :: seen) xs

/-- `mergeReviewResults` from `src/review.ts` (lines 16-59). -/
def mergeReviewResults : List ReviewResult → ReviewResult
  | [] =>
    { summary := String.toList "No files to review"
      issues := []
      positives := []
      overall_assessment := Assessment.approve }
  | [r] => r
  | r1 :: r2 :: rest =>
    { summary := List.intercalate [' '] ((r1 :: r2 :: rest).map ReviewResult.summary)
      issues := (r1 :: r2 :: rest).flatMap ReviewResult.issues
      positives := dedupKeepFirst [] ((r1 :: r2 :: rest).flatMap ReviewResult.positives)
      overall_assessment := computeOverall (r1 :: r2 :: rest) Assessment.approve }

/-- A review result carrying a given assessment, for the merge witness. -/
def mkResult (a : Assessment) : ReviewResult :=
  { summary := [], issues := [], positives := [], overall_assessment := a }

/-- JavaScript `diffContent.split('\n')`: split a character list at every
occurrence of `c`; the empty string yields one empty line. -/
def splitOnChar (c : Char) : List Char → List (List Char)
  | [] => [[]]
  | x :: xs =>
    if x = c then [] :: splitOnChar c xs
    else
      match splitOnChar c xs with
      | [] => [[x]]
      | r :: rs => (x :: r) :: rs

/-- Match a literal at the head of the input, returning the rest. -/
def dropLit : List Char → List Char → Option (List Char)
  | [], s => some s
  | _ :: _, [] => none
  | c :: cs, x :: xs => if c = x then dropLit cs xs else none

/-- Value of a digit string (most significant first). -/
def digitsToNat : List Char → Nat → Nat
  | [], acc => acc
  | c :: cs, acc => digitsToNat cs (acc * 10 + (c.toNat - ('0' : Char).toNat))

/-- Regex `(\d+)`: one or more digits at the head of the input. -/
def takeDigits (s : List Char) : Option (Nat × List Char) :=
  match s.takeWhile Char.isDigit with
  | [] => none
  | ds => some (digitsToNat ds 0, s.dropWhile Char.isDigit)

/-- Regex `(?:,(\d+))?` followed by a required literal: if a comma follows,
digits must follow it (otherwise the whole attempt at this position fails,
exactly as the backtracking regex does, since the required literal after the
group can never match the comma); absent group defaults to 1, as in
`parseInt(match[2] || '1', 10)`. -/
def parseCommaOpt : List Char → Option (Nat × List Char)
  | ',' :: rest =>
    match takeDigits rest with
    | none => none
    | some (n, r) => some (n, r)
  | s => some (1, s)

/-- One attempt of the hunk-header regex
`@@ -(\d+)(?:,(\d+))? \+(\d+)(?:,(\d+))? @@` anchored at the current
position (the regex is unanchored in the source, so the caller scans all
start positions).  Greedy `\d+` never needs to backtrack here, because the
character required right after each digit group can never be a digit. -/
def parseHunkHere (s : List Char) : Option (Nat × Nat × Nat × Nat) :=
  match dropLit (String.toList "@@ -") s with
  | none => none
  | some s1 =>
    match takeDigits s1 with
    | none => none
    | some (a, s2) =>
      match parseCommaOpt s2 with
      | none => none
      | some (b, s3) =>
        match dropLit (String.toList " +") s3 with
        | none => none
        | some s4 =>
          match takeDigits s4 with
          | none => none
          | some (c, s5) =>
            match parseCommaOpt s5 with
            | none => none
            | some (d, s6) =>
              match dropLit (String.toList " @@") s6 with
              | none => none
              | some _ => some (a, b, c, d)

/-- `line.match(/@@ -(\d+)(?:,(\d+))? \+(\d+)(?:,(\d+))? @@/)` from
`src/diff.ts` line 66: an unanchored search, trying every start position
left to right. -/
def matchHunkHeader : List Char → Option (Nat × Nat × Nat × Nat)
  | [] => none
  | c :: rest =>
    match parseHunkHere (c :: rest) with
    | some r => some r
    | none => matchHunkHeader rest

/-- Capture group 2 of `/diff --git a\/(.*) b\/(.*)/`: having fixed a start
position, the greedy first `(.*)` makes ` b/` match at its last occurrence,
so the captured path is everything after the last ` b/`. -/
def afterLastBSlash : List Char → Option (List Char)
  | [] => none
  | c :: rest =>
    match afterLastBSlash rest with
    | some p => some p
    | none => dropLit (String.toList " b/") (c :: rest)

/-- `line.match(/diff --git a\/(.*) b\/(.*)/)` from `src/diff.ts` line 30,
returning capture group 2 (the `b/` path).  The search succeeds at the
first position where the literal `diff --git a/` matches and is followed,
anywhere to its right, by ` b/`. -/
def findGitPath : List Char → Option (List Char)
  | [] => none
  | c :: rest =>
    match dropLit (String.toList "diff --git a/") (c :: rest) with
    | some after =>
      match afterLastBSlash after with
      | some p => some p
      | none => findGitPath rest
    | none => findGitPath rest

/-- The `diff --git` file-header marker. -/
def dgitMarker : List Char := String.toList "diff --git"

/-- The `@@` hunk-header marker. -/
def atatMarker : List Char := String.toList "@@"

/-- The `+` added-line marker. -/
def plusMarker : List Char := String.toList "+"

/-- The `+++` header marker. -/
def plus3Marker : List Char := String.toList "+++"

/-- The `-` removed-line marker. -/
def dashMarker : List Char := String.toList "-"

/-- The `---` header marker. -/
def dash3Marker : List Char := String.toList "---"

/-- The file-metadata line markers skipped by `parseDiff`
(`src/diff.ts` lines 45-53). -/
def metaMarkers : List (List Char) :=
  [String.toList "index ", String.toList "---", String.toList "+++",
    String.toList "new file", String.toList "deleted file",
    String.toList "similarity index", String.toList "rename from",
    String.toList "rename to", String.toList "Binary files"]

/-- Whether a line is a skipped file-metadata line. -/
def isMetaLine (l : List Char) : Bool :=
  metaMarkers.any (fun p => p.isPrefixOf l)

/-- Drop the last `n` elements of a list. -/
def dropLastN {α : Type} (l : List α) (n : Nat) : List α :=
  l.take (l.length - n)

/-- The mutable scan state of `parseDiff` (`src/diff.ts` lines 11-13).
JavaScript's `currentHunk` variable holds an object *reference*: after a
malformed `@@` line the already-pushed hunk object stays referenced, so a
later `currentHunk.content = ...; hunks.push(currentHunk)` mutates the
pushed copies in place and appends the same object again.  `aliasCount`
records how many trailing entries of the current file's `hunks` list are
that same object as `currentHunk`. -/
structure ParseState where
  files : List DiffFile
  currentFile : Option DiffFile
  currentHunk : Option DiffHunk
  hunkContent : List (List Char)
  aliasCount : Nat
deriving Repr, DecidableEq

/-- Join accumulated hunk lines: `hunkContent.join('\n')`. -/
def joinLines (ls : List (List Char)) : List Char :=
  List.intercalate [('\n' : Char)] ls

/-- Close the open hunk (if any) into the open file (if any):
`currentHunk.content = hunkContent.join('\n'); currentFile.hunks.push(currentHunk)`.
The `aliasCount` trailing entries of `hunks` are the same JavaScript object
as `currentHunk`, so the content assignment rewrites them too; the push then
appends one more copy. -/
def flushFile (ps : ParseState) : List DiffFile :=
  match ps.currentFile with
  | none => []
  | some f =>
    match ps.currentHunk with
    | none => [f]
    | some h =>
      [{ f with
          hunks := dropLastN f.hunks ps.aliasCount ++
            List.replicate (ps.aliasCount + 1)
              { h with content := joinLines ps.hunkContent } }]

/-- One iteration of the `parseDiff` scan loop (`src/diff.ts` lines 15-90). -/
def processLine (ps : ParseState) (line : List Char) : ParseState :=
  if dgitMarker.isPrefixOf line then
    { files := ps.files ++ flushFile ps
      currentFile := some
        { path := (findGitPath line).getD []
          additions := 0
          deletions := 0
          hunks := [] }
      currentHunk := none
      hunkContent := []
      aliasCount := 0 }
  else if isMetaLine line then ps
  else if atatMarker.isPrefixOf line then
    let pushed : ParseState :=
      match ps.currentHunk, ps.currentFile with
      | some h, some f =>
        let h' := { h with content := joinLines ps.hunkContent }
        { ps with
            currentFile := some
              { f with
                  hunks := dropLastN f.hunks ps.aliasCount ++
                    List.replicate (ps.aliasCount + 1) h' }
            currentHunk := some h' }
      | _, _ => ps
    match matchHunkHeader line with
    | some (a, b, c, d) =>
      { pushed with
          currentHunk := some ⟨a, b, c, d, []⟩
          hunkContent := [line]
          aliasCount := 0 }
    | none =>
      { pushed with
          hunkContent := [line]
          aliasCount :=
            match ps.currentHunk, ps.currentFile with
            | some _, some _ => ps.aliasCount + 1
            | _, _ => ps.aliasCount }
  else
    match ps.currentHunk with
    | none => ps
    | some _ =>
      let ps' := { ps with hunkContent := ps.hunkContent ++ [line] }
      if plusMarker.isPrefixOf line ∧
          ¬ plus3Marker.isPrefixOf line then
        match ps'.currentFile with
        | some f => { ps' with currentFile := some { f with additions := f.additions + 1 } }
        | none => ps'
      else if dashMarker.isPrefixOf line ∧
          ¬ dash3Marker.isPrefixOf line then
        match ps'.currentFile with
        | some f => { ps' with currentFile := some { f with deletions := f.deletions + 1 } }
        | none => ps'
      else ps'

/-- Initial scan state of `parseDiff`. -/
def initParseState : ParseState :=
  { files := [], currentFile := none, currentHunk := none,
    hunkContent := [], aliasCount := 0 }

/-- `parseDiff` from `src/diff.ts` (lines 7-102). -/
def parseDiff (diffContent : String) : List DiffFile :=
  let final := (splitOnChar '\n' diffContent.toList).foldl processLine initParseState
  final.files ++ flushFile final

/-- A counted added line: starts with `+` but not `+++`
(`src/diff.ts` line 84). -/
def isAddLine (l : List Char) : Bool :=
  plusMarker.isPrefixOf l && !(plus3Marker.isPrefixOf l)

/-- A counted deleted line: starts with `-` but not `---`
(`src/diff.ts` line 86). -/
def isDelLine (l : List Char) : Bool :=
  dashMarker.isPrefixOf l && !(dash3Marker.isPrefixOf l)

/-- The count the claim asserts: all lines of the input satisfying the
marker, with no regard to where they occur. -/
def markedLineCount (mark : List Char → Bool) (s : String) : Nat :=
  ((splitOnChar '\n' s.toList).filter mark).length

/-- Reference count of marked lines, following the spec's §4.1 scan rules:
a line is counted only while a file is open (a `diff --git` line has been
seen) and a hunk is open within it (a well-formed `@@` header has been seen
since that file started); metadata lines are skipped; a malformed `@@` line
keeps the previously open hunk open. -/
def countMarked (mark : List Char → Bool) : List (List Char) → Bool → Bool → Nat
  | [], _, _ => 0
  | l :: ls, inFile, inHunk =>
    if dgitMarker.isPrefixOf l then
      countMarked mark ls true false
    else if isMetaLine l then
      countMarked mark ls inFile inHunk
    else if atatMarker.isPrefixOf l then
      countMarked mark ls inFile ((matchHunkHeader l).isSome || inHunk)
    else
      (if inFile && inHunk && mark l then 1 else 0) + countMarked mark ls inFile inHunk

/-- Total additions recorded in a parse state (emitted files plus the open
file). -/
def stateAdds (ps : ParseState) : Nat :=
  (ps.files.map DiffFile.additions).sum +
    (match ps.currentFile with
     | some f => f.additions
     | none => 0)

/-- Total deletions recorded in a parse state. -/
def stateDels (ps : ParseState) : Nat :=
  (ps.files.map DiffFile.deletions).sum +
    (match ps.currentFile with
     | some f => f.deletions
     | none => 0)

/-- Reference state for the amended content claim: per-file lists of hunk
contents, built by the spec's §4.1 scan rules (no counters, no aliasing). -/
structure SpecSt where
  done : List (List (List Char))
  fileAcc : Option (List (List Char))
  hunkAcc : Option (List (List Char))
deriving Repr, DecidableEq

/-- Close the open reference hunk, if any, into a content singleton. -/
def flushHunkAcc : Option (List (List Char)) → List (List Char)
  | none => []
  | some acc => [joinLines acc]

/-- Reference scan step, from the amended claim's wording: a `diff --git`
line closes hunk and file; metadata-marker lines are skipped everywhere; an
`@@` line closes the open hunk and opens a new one whose content starts with
the header line itself; any other line is appended to the open hunk. -/
def specStep (ss : SpecSt) (l : List Char) : SpecSt :=
  if dgitMarker.isPrefixOf l then
    { done := ss.done ++
        (match ss.fileAcc with
         | none => []
         | some hs => [hs ++ flushHunkAcc ss.hunkAcc])
      fileAcc := some []
      hunkAcc := none }
  else if isMetaLine l then ss
  else if atatMarker.isPrefixOf l then
    { done := ss.done
      fileAcc := ss.fileAcc.map (fun hs => hs ++ flushHunkAcc ss.hunkAcc)
      hunkAcc := some [l] }
  else
    match ss.hunkAcc with
    | none => ss
    | some acc => { ss with hunkAcc := some (acc ++ [l]) }

/-- Final flush of the reference scan. -/
def specFinish (ss : SpecSt) : List (List (List Char)) :=
  ss.done ++
    (match ss.fileAcc with
     | none => []
     | some hs => [hs ++ flushHunkAcc ss.hunkAcc])

/-- The expected hunk contents, file by file, of a diff's lines. -/
def specFiles (lines : List (List Char)) : List (List (List Char)) :=
  specFinish (lines.foldl specStep ⟨[], none, none⟩)

/-- The contents of a parsed file's hunks. -/
def contentsOfFile (f : DiffFile) : List (List Char) :=
  f.hunks.map DiffHunk.content

theorem splitGo_bind (maxChunkSize : Int) :
    ∀ (rest cur : List DiffFile) (sz : Nat),
      (splitGo maxChunkSize rest cur sz).flatMap DiffChunk.files = cur ++ rest := by
  intro rest
  induction rest with
  | nil =>
    intro cur sz
    by_cases h : cur = [] <;> simp [splitGo, h]
  | cons f rest ih =>
    intro cur sz
    by_cases h1 : (fileSize f : Int) > maxChunkSize
    · by_cases h : cur = [] <;>
        simp [splitGo, h1, h, ih]
    · by_cases h2 : ((sz + fileSize f : Int) > maxChunkSize ∧ cur ≠ [])
      · simp [splitGo, h1, h2, ih]
      · simp [splitGo, h1, h2, ih]

/-- Invariant proof for the chunking loop: every chunk it emits is non-empty,
and is either within the size budget or a standalone oversized single file.
Hypotheses: an empty current chunk has running size zero, and a non-empty
current chunk is within budget. -/
theorem splitGo_chunks (maxChunkSize : Int) :
    ∀ (rest cur : List DiffFile) (sz : Nat),
      (cur = [] → sz = 0) →
      (cur ≠ [] → (sz : Int) ≤ maxChunkSize) →
      ∀ c ∈ splitGo maxChunkSize rest cur sz,
        c.files ≠ [] ∧
          ((c.totalLines : Int) ≤ maxChunkSize ∨
            ∃ f, c.files = [f] ∧ (fileSize f : Int) > maxChunkSize ∧
              c.totalLines = fileSize f) := by
  intro rest
  induction rest with
  | nil =>
    intro cur sz hemp hsz c hc
    by_cases h : cur = []
    · simp [splitGo, h] at hc
    · simp [splitGo, h] at hc
      subst hc
      exact ⟨h, Or.inl (hsz h)⟩
  | cons f rest ih =>
    intro cur sz hemp hsz c hc
    by_cases h1 : (fileSize f : Int) > maxChunkSize
    · simp only [splitGo, if_pos h1] at hc
      rcases List.mem_append.1 hc with hc | hc
      · by_cases h : cur = []
        · simp [h] at hc
        · simp [h] at hc
          subst hc
          exact ⟨h, Or.inl (hsz h)⟩
      · rcases List.mem_cons.1 hc with hc | hc
        · subst hc
          exact ⟨by simp, Or.inr ⟨f, rfl, h1, rfl⟩⟩
        · exact ih [] 0 (fun _ => rfl) (by simp) c hc
    · by_cases h2 : ((sz + fileSize f : Int) > maxChunkSize ∧ cur ≠ [])
      · simp only [splitGo, if_neg h1, if_pos h2] at hc
        rcases List.mem_cons.1 hc with hc | hc
        · subst hc
          exact ⟨h2.2, Or.inl (hsz h2.2)⟩
        · refine ih [f] (fileSize f) (by simp) (fun _ => ?_) c hc
          omega
      · simp only [splitGo, if_neg h1, if_neg h2] at hc
        refine ih (cur ++ [f]) (sz + fileSize f) (by simp) (fun _ => ?_) c hc
        by_cases h : cur = []
        · have : sz = 0 := hemp h
          omega
        · have hle : (sz : Int) ≤ maxChunkSize := hsz h
          rw [not_and_or] at h2
          rcases h2 with h2 | h2
          · omega
          · exact absurd h h2

/-- Claim C2: for every list of FileChange and every maximum chunk size, the
concatenation of the `files` lists of the chunks returned by `splitIntoChunks`
equals the input list in order: every input file appears in exactly one chunk,
none is duplicated or dropped, and order is preserved. -/
theorem splitIntoChunks_concat (files : List DiffFile) (maxChunkSize : Int) :
    (splitIntoChunks files maxChunkSize).flatMap DiffChunk.files = files := by
  simpa using splitGo_bind maxChunkSize files [] 0

/-- Claim C3: every chunk returned by `splitIntoChunks` that contains more than
one file has `totalLines` at most `maxChunkSize`, and any chunk whose
`totalLines` exceeds `maxChunkSize` contains exactly one file, whose own
`additions + deletions` exceeds `maxChunkSize`. -/
theorem splitIntoChunks_size_bound (files : List DiffFile) (maxChunkSize : Int)
    (c : DiffChunk) (hc : c ∈ splitIntoChunks files maxChunkSize) :
    (1 < c.files.length → (c.totalLines : Int) ≤ maxChunkSize) ∧
      ((c.totalLines : Int) > maxChunkSize →
        ∃ f, c.files = [f] ∧ (fileSize f : Int) > maxChunkSize) := by
  have h := splitGo_chunks maxChunkSize files [] 0 (fun _ => rfl) (by simp) c hc
  rcases h.2 with hle | ⟨f, hf, hgt, _⟩
  · refine ⟨fun _ => hle, fun hlt => absurd hle (by omega)⟩
  · refine ⟨fun hlen => ?_, fun _ => ⟨f, hf, hgt⟩⟩
    rw [hf] at hlen
    simp at hlen

/-- Claim C10: `splitIntoChunks` never emits a chunk with an empty `files`
list, so no empty diff is ever handed to a downstream review call. -/
theorem splitIntoChunks_no_empty_chunk (files : List DiffFile) (maxChunkSize : Int)
    (c : DiffChunk) (hc : c ∈ splitIntoChunks files maxChunkSize) :
    c.files ≠ [] :=
  (splitGo_chunks maxChunkSize files [] 0 (fun _ => rfl) (by simp) c hc).1

/-- Witness for claim C3: the oversized 300-line file sits alone in a chunk of
the scenario run, and the theorem's hypotheses hold there. -/
theorem splitIntoChunks_size_bound_witness :
    (⟨[⟨('b' : Char) :: [], 300, 0, []⟩], 300⟩ : DiffChunk) ∈
        splitIntoChunks demoFilesChunks 200 ∧
      ((1 < ([⟨('b' : Char) :: [], 300, 0, []⟩] : List DiffFile).length →
          ((300 : Nat) : Int) ≤ 200) ∧
        (((300 : Nat) : Int) > 200 →
          ∃ f, ([⟨('b' : Char) :: [], 300, 0, []⟩] : List DiffFile) = [f] ∧
            (fileSize f : Int) > 200)) :=
  ⟨by decide,
    splitIntoChunks_size_bound demoFilesChunks 200 ⟨[⟨('b' : Char) :: [], 300, 0, []⟩], 300⟩
      (by decide)⟩

/-- Witness for claim C10: the first chunk of the scenario run is non-empty. -/
theorem splitIntoChunks_no_empty_chunk_witness :
    (⟨[⟨('a' : Char) :: [], 150, 0, []⟩], 150⟩ : DiffChunk) ∈
        splitIntoChunks demoFilesChunks 200 ∧
      ([⟨('a' : Char) :: [], 150, 0, []⟩] : List DiffFile) ≠ [] :=
  ⟨by decide,
    splitIntoChunks_no_empty_chunk demoFilesChunks 200
      ⟨[⟨('a' : Char) :: [], 150, 0, []⟩], 150⟩ (by decide)⟩

/-- Counterexample to claim C8 as stated ("for every integer n"): for a
negative `n`, JavaScript `slice(0, n)` drops `-n` elements from the end of
the sorted list, so each application of `limitFiles` keeps shrinking the
list and idempotence fails. -/
theorem limitFiles_neg_not_idempotent :
    limitFiles (limitFiles limDemoSmall (-1)) (-1) ≠ limitFiles limDemoSmall (-1) := by
  decide

theorem limitFiles_of_le {files : List DiffFile} {n : Int}
    (h : (files.length : Int) ≤ n) : limitFiles files n = files := by
  rw [limitFiles, if_pos h]

/-- Claim C8 (amended): for every list of FileChange and every integer
`n ≥ 0`, `limitFiles` is idempotent. -/
theorem limitFiles_idempotent (files : List DiffFile) (n : Int) (hn : 0 ≤ n) :
    limitFiles (limitFiles files n) n = limitFiles files n := by
  by_cases h : (files.length : Int) ≤ n
  · rw [limitFiles_of_le h, limitFiles_of_le h]
  · have hres : limitFiles files n = (sortBySizeDesc files).take n.toNat := by
      rw [limitFiles, if_neg h, jsSliceEnd, if_neg (by omega)]
    have hlen : (limitFiles files n).length = n.toNat := by
      rw [hres, List.length_take, sortBySizeDesc, List.length_insertionSort]
      omega
    exact limitFiles_of_le (by rw [hlen]; omega)

/-- Witness for claim C8 (amended): idempotence at the scenario input with
`n = 2`. -/
theorem limitFiles_idempotent_witness :
    (0 : Int) ≤ 2 ∧ limitFiles (limitFiles limDemo 2) 2 = limitFiles limDemo 2 :=
  ⟨by decide, limitFiles_idempotent limDemo 2 (by decide)⟩

/-- Claim C9: a list within the limit is returned unchanged; a longer list is
cut down to exactly `n` files, namely those with the largest
`additions + deletions`, in descending size order (every file left out is no
larger than any file kept), and the underlying sort is stable with respect to
input order for equal sizes. -/
theorem limitFiles_selects_largest (files : List DiffFile) (n : Nat) :
    (files.length ≤ n → limitFiles files (n : Int) = files) ∧
      (n < files.length →
        (limitFiles files (n : Int)).length = n ∧
          (∃ rest, files.Perm (limitFiles files (n : Int) ++ rest) ∧
            ∀ f ∈ rest, ∀ g ∈ limitFiles files (n : Int), fileSize f ≤ fileSize g) ∧
          (limitFiles files (n : Int)).Pairwise (fun a b => fileSize b ≤ fileSize a) ∧
          (∀ f g : DiffFile, fileSize f = fileSize g → List.Sublist [f, g] files →
            List.Sublist [f, g] (sortBySizeDesc files))) := by
  constructor
  · intro hle
    rw [limitFiles, if_pos (by exact_mod_cast hle)]
  · intro hlt
    have hres : limitFiles files (n : Int) = (sortBySizeDesc files).take n := by
      rw [limitFiles, if_neg (by exact_mod_cast not_le.2 hlt), jsSliceEnd,
        if_neg (by omega)]
      norm_num
    have hsortlen : (sortBySizeDesc files).length = files.length :=
      List.length_insertionSort _ _
    have hsorted : (sortBySizeDesc files).Pairwise sizeGE :=
      List.sorted_insertionSort sizeGE files
    have hdecomp : sortBySizeDesc files =
        (sortBySizeDesc files).take n ++ (sortBySizeDesc files).drop n :=
      (List.take_append_drop n _).symm
    refine ⟨?_, ⟨(sortBySizeDesc files).drop n, ?_, ?_⟩, ?_, ?_⟩
    · rw [hres, List.length_take, hsortlen]
      omega
    · rw [hres, List.take_append_drop]
      exact (List.perm_insertionSort sizeGE files).symm
    · intro f hf g hg
      rw [hres] at hg
      have := (List.pairwise_append.1 (hdecomp ▸ hsorted)).2.2
      exact this g hg f hf
    · rw [hres]
      exact hsorted.sublist (List.take_sublist n _)
    · intro f g hfg hsub
      exact List.pair_sublist_insertionSort (le_of_eq hfg.symm) hsub

/-- Witness for claim C9: for files of sizes `[7, 150, 45]` and `maxFiles = 2`
the limiter keeps exactly two files, and (checked directly) they are the two
largest, in descending order. -/
theorem limitFiles_selects_largest_witness :
    2 < limDemo.length ∧ (limitFiles limDemo ((2 : Nat) : Int)).length = 2 ∧
      limitFiles limDemo ((2 : Nat) : Int) = [⟨['y'], 150, 0, []⟩, ⟨['z'], 45, 0, []⟩] :=
  ⟨by decide, ((limitFiles_selects_largest limDemo 2).2 (by decide)).1, by decide⟩

theorem computeOverall_spec (rs : List ReviewResult) (acc : Assessment)
    (hacc : acc ≠ Assessment.request_changes) :
    computeOverall rs acc =
      if rs.any (fun r => r.overall_assessment = Assessment.request_changes) then
        Assessment.request_changes
      else if rs.any (fun r => r.overall_assessment = Assessment.comment) then
        Assessment.comment
      else acc := by
  induction rs generalizing acc with
  | nil => simp [computeOverall]
  | cons r rest ih =>
    by_cases h1 : r.overall_assessment = Assessment.request_changes
    · simp [computeOverall, h1]
    · by_cases h2 : r.overall_assessment = Assessment.comment
      · rw [computeOverall, if_neg h1, if_pos h2, ih Assessment.comment (by simp)]
        simp [h1, h2]
      · rw [computeOverall, if_neg h1, if_neg h2, ih acc hacc]
        simp [h1, h2]

/-- Claim C4: for every non-empty list of ReviewResult values, the merged
`overall_assessment` is `request_changes` if any input carries it, otherwise
`comment` if any input carries it, otherwise `approve`. -/
theorem mergeReviewResults_assessment (rs : List ReviewResult) (hne : rs ≠ []) :
    (mergeReviewResults rs).overall_assessment =
      if rs.any (fun r => r.overall_assessment = Assessment.request_changes) then
        Assessment.request_changes
      else if rs.any (fun r => r.overall_assessment = Assessment.comment) then
        Assessment.comment
      else Assessment.approve := by
  match rs with
  | [] => exact absurd rfl hne
  | [r] =>
    rcases hx : r.overall_assessment with h | h | h <;>
      simp [mergeReviewResults, hx]
  | r1 :: r2 :: rest =>
    rw [mergeReviewResults]
    exact computeOverall_spec (r1 :: r2 :: rest) Assessment.approve (by simp)

/-- Witness for claim C4, at the spec's own scenario:
merging approve, request_changes, comment yields request_changes. -/
theorem mergeReviewResults_assessment_witness :
    ([mkResult Assessment.approve, mkResult Assessment.request_changes,
        mkResult Assessment.comment] : List ReviewResult) ≠ [] ∧
      (mergeReviewResults
          [mkResult Assessment.approve, mkResult Assessment.request_changes,
            mkResult Assessment.comment]).overall_assessment =
        if ([mkResult Assessment.approve, mkResult Assessment.request_changes,
              mkResult Assessment.comment].any
            (fun r => r.overall_assessment = Assessment.request_changes)) then
          Assessment.request_changes
        else if ([mkResult Assessment.approve, mkResult Assessment.request_changes,
              mkResult Assessment.comment].any
            (fun r => r.overall_assessment = Assessment.comment)) then
          Assessment.comment
        else Assessment.approve :=
  ⟨by decide,
    mergeReviewResults_assessment
      [mkResult Assessment.approve, mkResult Assessment.request_changes,
        mkResult Assessment.comment] (by decide)⟩

theorem flushFile_additions (ps : ParseState) :
    ((flushFile ps).map DiffFile.additions).sum =
      (match ps.currentFile with
       | some f => f.additions
       | none => 0) := by
  unfold flushFile
  cases ps.currentFile <;> cases ps.currentHunk <;> simp

theorem flushFile_deletions (ps : ParseState) :
    ((flushFile ps).map DiffFile.deletions).sum =
      (match ps.currentFile with
       | some f => f.deletions
       | none => 0) := by
  unfold flushFile
  cases ps.currentFile <;> cases ps.currentHunk <;> simp

theorem processLine_currentFile_isSome (ps : ParseState) (l : List Char) :
    (processLine ps l).currentFile.isSome =
      if dgitMarker <+: l then true
      else ps.currentFile.isSome := by
  by_cases h1 : dgitMarker <+: l
  · simp [processLine, h1]
  · by_cases h2 : isMetaLine l
    · simp [processLine, h1, h2]
    · by_cases h3 : atatMarker <+: l
      · cases hm : matchHunkHeader l <;>
          cases hh : ps.currentHunk <;>
            cases hf : ps.currentFile <;>
              simp [processLine, h1, h2, h3, hm, hh, hf]
      · cases hh : ps.currentHunk <;>
          cases hf : ps.currentFile <;>
            simp [processLine, h1, h2, h3, hh, hf] <;>
              split_ifs <;> simp [hf]

theorem processLine_currentHunk_isSome (ps : ParseState) (l : List Char) :
    (processLine ps l).currentHunk.isSome =
      (if dgitMarker <+: l then false
       else if isMetaLine l then ps.currentHunk.isSome
       else if atatMarker <+: l then
         ((matchHunkHeader l).isSome || ps.currentHunk.isSome)
       else ps.currentHunk.isSome) := by
  by_cases h1 : dgitMarker <+: l
  · simp [processLine, h1]
  · by_cases h2 : isMetaLine l
    · simp [processLine, h1, h2]
    · by_cases h3 : atatMarker <+: l
      · cases hm : matchHunkHeader l <;>
          cases hh : ps.currentHunk <;>
            cases hf : ps.currentFile <;>
              simp [processLine, h1, h2, h3, hm, hh, hf]
      · cases hh : ps.currentHunk <;>
          cases hf : ps.currentFile <;>
            simp [processLine, h1, h2, h3, hh, hf] <;>
              split_ifs <;> simp [hh]

theorem countMarked_cons (mark : List Char → Bool) (l : List Char)
    (ls : List (List Char)) (inFile inHunk : Bool) :
    countMarked mark (l :: ls) inFile inHunk =
      (if dgitMarker <+: l then 0
       else if isMetaLine l then 0
       else if atatMarker <+: l then 0
       else if inFile && inHunk && mark l then 1 else 0) +
        countMarked mark ls
          (if dgitMarker <+: l then true else inFile)
          (if dgitMarker <+: l then false
           else if isMetaLine l then inHunk
           else if atatMarker <+: l then ((matchHunkHeader l).isSome || inHunk)
           else inHunk) := by
  by_cases h1 : dgitMarker <+: l
  · simp [countMarked, h1]
  · by_cases h2 : isMetaLine l
    · simp [countMarked, h1, h2]
    · by_cases h3 : atatMarker <+: l
      · simp [countMarked, h1, h2, h3]
      · simp [countMarked, h1, h2, h3]

theorem isPrefixOf_false_iff (l1 l2 : List Char) :
    (l1.isPrefixOf l2 = false) ↔ ¬ (l1 <+: l2) := by
  cases h : l1.isPrefixOf l2 <;> simp_all [← List.isPrefixOf_iff_prefix]

theorem stateAdds_processLine (ps : ParseState) (l : List Char) :
    stateAdds (processLine ps l) =
      stateAdds ps +
        (if dgitMarker <+: l then 0
         else if isMetaLine l then 0
         else if atatMarker <+: l then 0
         else if ps.currentFile.isSome && ps.currentHunk.isSome && isAddLine l then 1
         else 0) := by
  by_cases h1 : dgitMarker <+: l
  · have e : processLine ps l =
        { files := ps.files ++ flushFile ps
          currentFile := some
            { path := (findGitPath l).getD [], additions := 0, deletions := 0, hunks := [] }
          currentHunk := none, hunkContent := [], aliasCount := 0 } := by
      simp [processLine, h1]
    rw [e]
    simp only [stateAdds, List.map_append, List.sum_append, flushFile_additions]
    cases hf : ps.currentFile <;> simp [h1]
  · by_cases h2 : isMetaLine l
    · have e : processLine ps l = ps := by simp [processLine, h1, h2]
      rw [e]
      simp [h1, h2]
    · by_cases h3 : atatMarker <+: l
      · cases hm : matchHunkHeader l <;>
          cases hh : ps.currentHunk <;>
            cases hf : ps.currentFile <;>
              simp [processLine, stateAdds, h1, h2, h3, hm, hh, hf]
      · cases hh : ps.currentHunk
        · have e : processLine ps l = ps := by simp [processLine, h1, h2, h3, hh]
          rw [e]
          simp [h1, h2, h3, hh]
        · by_cases hp : plusMarker <+: l <;>
            by_cases hp3 : plus3Marker <+: l <;>
              by_cases hdm : dashMarker <+: l <;>
                by_cases hd3 : dash3Marker <+: l <;>
                  cases hf : ps.currentFile <;>
                    simp [processLine, stateAdds, isAddLine, isPrefixOf_false_iff,
                      h1, h2, h3, hh, hp, hp3, hdm, hd3, hf] <;>
                      omega

theorem not_plus_and_dash (l : List Char) :
    ¬ (plusMarker <+: l ∧ dashMarker <+: l) := by
  rintro ⟨⟨t1, e1⟩, ⟨t2, e2⟩⟩
  rw [← e1] at e2
  simp [plusMarker, dashMarker, String.toList] at e2

theorem stateDels_processLine (ps : ParseState) (l : List Char) :
    stateDels (processLine ps l) =
      stateDels ps +
        (if dgitMarker <+: l then 0
         else if isMetaLine l then 0
         else if atatMarker <+: l then 0
         else if ps.currentFile.isSome && ps.currentHunk.isSome && isDelLine l then 1
         else 0) := by
  by_cases h1 : dgitMarker <+: l
  · have e : processLine ps l =
        { files := ps.files ++ flushFile ps
          currentFile := some
            { path := (findGitPath l).getD [], additions := 0, deletions := 0, hunks := [] }
          currentHunk := none, hunkContent := [], aliasCount := 0 } := by
      simp [processLine, h1]
    rw [e]
    simp only [stateDels, List.map_append, List.sum_append, flushFile_deletions]
    cases hf : ps.currentFile <;> simp [h1]
  · by_cases h2 : isMetaLine l
    · have e : processLine ps l = ps := by simp [processLine, h1, h2]
      rw [e]
      simp [h1, h2]
    · by_cases h3 : atatMarker <+: l
      · cases hm : matchHunkHeader l <;>
          cases hh : ps.currentHunk <;>
            cases hf : ps.currentFile <;>
              simp [processLine, stateDels, h1, h2, h3, hm, hh, hf]
      · cases hh : ps.currentHunk
        · have e : processLine ps l = ps := by simp [processLine, h1, h2, h3, hh]
          rw [e]
          simp [h1, h2, h3, hh]
        · by_cases hp : plusMarker <+: l
          · have hdmf : ¬ dashMarker <+: l := fun hdm => not_plus_and_dash l ⟨hp, hdm⟩
            by_cases hp3 : plus3Marker <+: l <;>
              cases hf : ps.currentFile <;>
                simp [processLine, stateDels, isDelLine, isPrefixOf_false_iff,
                  h1, h2, h3, hh, hp, hp3, hdmf, hf] <;>
                  omega
          · by_cases hdm : dashMarker <+: l <;>
              by_cases hd3 : dash3Marker <+: l <;>
                cases hf : ps.currentFile <;>
                  simp [processLine, stateDels, isDelLine, isPrefixOf_false_iff,
                    h1, h2, h3, hh, hp, hdm, hd3, hf] <;>
                    omega

theorem stateAdds_foldl (lines : List (List Char)) :
    ∀ ps : ParseState,
      stateAdds (lines.foldl processLine ps) =
        stateAdds ps +
          countMarked isAddLine lines ps.currentFile.isSome ps.currentHunk.isSome := by
  induction lines with
  | nil =>
    intro ps
    simp [countMarked]
  | cons l ls ih =>
    intro ps
    rw [List.foldl_cons, ih (processLine ps l), stateAdds_processLine,
      processLine_currentFile_isSome, processLine_currentHunk_isSome,
      countMarked_cons]
    omega

theorem stateDels_foldl (lines : List (List Char)) :
    ∀ ps : ParseState,
      stateDels (lines.foldl processLine ps) =
        stateDels ps +
          countMarked isDelLine lines ps.currentFile.isSome ps.currentHunk.isSome := by
  induction lines with
  | nil =>
    intro ps
    simp [countMarked]
  | cons l ls ih =>
    intro ps
    rw [List.foldl_cons, ih (processLine ps l), stateDels_processLine,
      processLine_currentFile_isSome, processLine_currentHunk_isSome,
      countMarked_cons]
    omega

/-- Claim C1 (amended): the sum of `additions` over all parsed files equals
the number of lines starting with `+` (but not `+++`) that occur while a file
and a hunk are open, i.e. after a `diff --git` line and after a well-formed
`@@` header within that file — lines before any file header or before any
well-formed hunk header are silently dropped and not counted; symmetrically
for `-`/`deletions`. -/
theorem parseDiff_counts (s : String) :
    ((parseDiff s).map DiffFile.additions).sum =
        countMarked isAddLine (splitOnChar '\n' s.toList) false false ∧
      ((parseDiff s).map DiffFile.deletions).sum =
        countMarked isDelLine (splitOnChar '\n' s.toList) false false := by
  constructor
  · show ((((splitOnChar '\n' s.toList).foldl processLine initParseState).files ++
        flushFile ((splitOnChar '\n' s.toList).foldl processLine initParseState)).map
          DiffFile.additions).sum = _
    rw [List.map_append, List.sum_append, flushFile_additions]
    have h := stateAdds_foldl (splitOnChar '\n' s.toList) initParseState
    simp only [stateAdds, initParseState] at h
    simp only [List.map_nil, List.sum_nil, Nat.zero_add, Option.isSome_none] at h
    rw [← h]
    rfl
  · show ((((splitOnChar '\n' s.toList).foldl processLine initParseState).files ++
        flushFile ((splitOnChar '\n' s.toList).foldl processLine initParseState)).map
          DiffFile.deletions).sum = _
    rw [List.map_append, List.sum_append, flushFile_deletions]
    have h := stateDels_foldl (splitOnChar '\n' s.toList) initParseState
    simp only [stateDels, initParseState] at h
    simp only [List.map_nil, List.sum_nil, Nat.zero_add, Option.isSome_none] at h
    rw [← h]
    rfl

/-- Counterexample to claim C1 as stated: the input `"+hello"` has one line
starting with `+` (and not `+++`), but it lies outside any file or hunk, so
`parseDiff` counts no addition for it. -/
theorem parseDiff_counts_claim_cex :
    ¬ (((parseDiff "+hello").map DiffFile.additions).sum =
        markedLineCount isAddLine "+hello") := by
  decide

/-- Claim C5 evaluated at the failing input: after the well-formed hunk
`@@ -1,1 +1,1 @@` (one record expected), the malformed line `@@ bad` makes
`parseDiff` push the previous hunk again — the stale `currentHunk` reference
is pushed a second time at end of input — so the file carries TWO identical
hunk records, both with their content overwritten by the text that followed
the malformed header (`@@ bad\n+y`), and the `+y` line IS attributed to a
hunk and counted.  The claim (and spec §7) says the malformed header is
skipped, no record is duplicated, and following lines are not attributed. -/
theorem parseDiff_malformed_hunk_alias :
    parseDiff "diff --git a/f b/f\n@@ -1,1 +1,1 @@\n+x\n@@ bad\n+y" =
      [⟨String.toList "f", 2, 0,
        [⟨1, 1, 1, 1, String.toList "@@ bad\n+y"⟩,
          ⟨1, 1, 1, 1, String.toList "@@ bad\n+y"⟩]⟩] := by
  decide

/-- Counterexample to claim C6 as stated: a removed line `--- x` inside a
hunk (the hunk header says one old line, zero new lines) starts with the
`---` metadata marker, so `parseDiff` skips it; the hunk's `content` is the
bare header line, not the verbatim hunk text that includes `--- x`. -/
theorem parseDiff_content_cex :
    (parseDiff "diff --git a/f b/f\n@@ -1,1 +0,0 @@\n--- x").map
        (fun f => f.hunks.map DiffHunk.content) =
      [[String.toList "@@ -1,1 +0,0 @@"]] ∧
      String.toList "@@ -1,1 +0,0 @@" ≠
        String.toList "@@ -1,1 +0,0 @@\n--- x" := by
  decide

theorem flushFile_contents (ps : ParseState) (h4 : ps.aliasCount = 0) :
    (flushFile ps).map contentsOfFile =
      (match ps.currentFile with
       | none => []
       | some f => [contentsOfFile f ++
           (match ps.currentHunk with
            | none => []
            | some _ => [joinLines ps.hunkContent])]) := by
  unfold flushFile
  cases hf : ps.currentFile <;> cases hh : ps.currentHunk <;>
    simp [contentsOfFile, dropLastN, h4]

theorem specStep_sim (ps : ParseState) (ss : SpecSt) (l : List Char)
    (hWF : atatMarker <+: l → (matchHunkHeader l).isSome = true)
    (h1 : ss.done = ps.files.map contentsOfFile)
    (h2 : ss.fileAcc = ps.currentFile.map contentsOfFile)
    (h3 : ss.hunkAcc = (match ps.currentHunk with
      | some _ => some ps.hunkContent
      | none => none))
    (h4 : ps.aliasCount = 0) :
    (specStep ss l).done = (processLine ps l).files.map contentsOfFile ∧
      (specStep ss l).fileAcc = (processLine ps l).currentFile.map contentsOfFile ∧
      (specStep ss l).hunkAcc = (match (processLine ps l).currentHunk with
        | some _ => some (processLine ps l).hunkContent
        | none => none) ∧
      (processLine ps l).aliasCount = 0 := by
  by_cases hg : dgitMarker <+: l
  · cases hf : ps.currentFile <;> cases hh : ps.currentHunk <;>
      simp_all [specStep, processLine, flushFile, flushHunkAcc, hg,
        contentsOfFile, dropLastN]
  · by_cases hm : isMetaLine l
    · simp_all [specStep, processLine, hg, hm]
    · by_cases ha : atatMarker <+: l
      · have hsome := hWF ha
        cases hmm : matchHunkHeader l with
        | none => rw [hmm] at hsome; simp at hsome
        | some r =>
          cases hf : ps.currentFile <;> cases hh : ps.currentHunk <;>
            simp_all [specStep, processLine, flushHunkAcc, hg, hm, ha, hmm,
              contentsOfFile, dropLastN]
      · cases hh : ps.currentHunk <;>
          cases hf : ps.currentFile <;>
            by_cases hp : (plusMarker.isPrefixOf l ∧ ¬ plus3Marker.isPrefixOf l) <;>
              by_cases hd : (dashMarker.isPrefixOf l ∧ ¬ dash3Marker.isPrefixOf l) <;>
                simp_all [specStep, processLine, hg, hm, ha, contentsOfFile] <;>
                  split_ifs <;> simp_all [contentsOfFile]

theorem spec_sim_foldl (lines : List (List Char)) :
    ∀ (ps : ParseState) (ss : SpecSt),
      (∀ l ∈ lines, atatMarker <+: l → (matchHunkHeader l).isSome = true) →
      ss.done = ps.files.map contentsOfFile →
      ss.fileAcc = ps.currentFile.map contentsOfFile →
      ss.hunkAcc = (match ps.currentHunk with
        | some _ => some ps.hunkContent
        | none => none) →
      ps.aliasCount = 0 →
      (lines.foldl specStep ss).done =
          (lines.foldl processLine ps).files.map contentsOfFile ∧
        (lines.foldl specStep ss).fileAcc =
          (lines.foldl processLine ps).currentFile.map contentsOfFile ∧
        (lines.foldl specStep ss).hunkAcc =
          (match (lines.foldl processLine ps).currentHunk with
           | some _ => some (lines.foldl processLine ps).hunkContent
           | none => none) ∧
        (lines.foldl processLine ps).aliasCount = 0 := by
  induction lines with
  | nil =>
    intro ps ss _ h1 h2 h3 h4
    exact ⟨h1, h2, h3, h4⟩
  | cons l ls ih =>
    intro ps ss hWF h1 h2 h3 h4
    have step := specStep_sim ps ss l (hWF l (by simp)) h1 h2 h3 h4
    simpa using ih (processLine ps l) (specStep ss l)
      (fun l' hl' => hWF l' (by simp [hl'])) step.1 step.2.1 step.2.2.1 step.2.2.2

/-- Claim C6 (amended): for every diff in which every line starting with `@@`
matches the hunk-header shape, each parsed file's hunk contents are exactly
the reference extraction: each hunk's `content` is its `@@` header line
followed by every subsequent line of the hunk that does not begin with a
file-metadata marker (`index `, `---`, `+++`, `new file`, `deleted file`,
`similarity index`, `rename from`, `rename to`, `Binary files`), in order,
newline-joined; metadata-marker lines inside a hunk are omitted. -/
theorem parseDiff_hunk_contents (s : String)
    (hWF : ∀ l ∈ splitOnChar '\n' s.toList,
      atatMarker <+: l → (matchHunkHeader l).isSome = true) :
    (parseDiff s).map contentsOfFile = specFiles (splitOnChar '\n' s.toList) := by
  have h := spec_sim_foldl (splitOnChar '\n' s.toList) initParseState ⟨[], none, none⟩
    hWF (by simp [initParseState]) (by simp [initParseState])
    (by simp [initParseState]) rfl
  show (((splitOnChar '\n' s.toList).foldl processLine initParseState).files ++
      flushFile ((splitOnChar '\n' s.toList).foldl processLine initParseState)).map
        contentsOfFile = _
  rw [List.map_append, flushFile_contents _ h.2.2.2]
  unfold specFiles specFinish
  rw [h.1, h.2.1, h.2.2.1]
  cases hfc : ((splitOnChar '\n' s.toList).foldl processLine initParseState).currentFile <;>
    cases hhc : ((splitOnChar '\n' s.toList).foldl processLine initParseState).currentHunk <;>
      simp [flushHunkAcc]

/-- Witness for claim C6 (amended), on a two-hunk diff with a metadata-marker
line inside the first hunk: every `@@` line is well-formed, and the parsed
contents equal the reference extraction. -/
theorem parseDiff_hunk_contents_witness :
    (∀ l ∈ splitOnChar '\n'
        (String.toList
          "diff --git a/f b/f\n@@ -1,2 +1,1 @@\n ctx\n--- x\n-old\n@@ -9 +9 @@\n+new"),
      atatMarker <+: l → (matchHunkHeader l).isSome = true) ∧
      (parseDiff
          "diff --git a/f b/f\n@@ -1,2 +1,1 @@\n ctx\n--- x\n-old\n@@ -9 +9 @@\n+new").map
          contentsOfFile =
        specFiles (splitOnChar '\n'
          (String.toList
            "diff --git a/f b/f\n@@ -1,2 +1,1 @@\n ctx\n--- x\n-old\n@@ -9 +9 @@\n+new")) :=
  ⟨by decide,
    parseDiff_hunk_contents
      "diff --git a/f b/f\n@@ -1,2 +1,1 @@\n ctx\n--- x\n-old\n@@ -9 +9 @@\n+new"
      (by decide)⟩

